import Mathlib

/-!  Verification of the Monte Carlo tree search node
     (montecarlotreesearchnode.py).

     The Python class `MonteCarloTreeSearchNode` is shallowly embedded:
     the node is an inductive tree value (the `parent` back-reference is
     represented structurally — operations that read `child.parent`
     receive the parent node explicitly, and `backpropagate` acts on the
     explicit chain from a node up to the root), the external `GameState`
     collaborator is a record of pure functions, the `wins` dict is an
     association list, and the numpy float arithmetic of the UCB formula
     is modelled by an exact value lattice with NaN and signed
     infinities.  Fallible operations (`pop` from an empty list, dict
     `KeyError`, `argmax` of an empty array, `AttributeError` on a
     missing parent) return `Option` or carry an explicit failure flag.  -/

namespace MCTS

/-- A numpy float value: NaN, `+inf`, `-inf`, or a finite value
(modelled exactly as a rational).  -/
inductive F : Type where
  | nan : F
  | inf : F
  | ninf : F
  | fin : ℚ → F
deriving DecidableEq

/-- numpy addition (`x + y`): NaN propagates, `inf + -inf = NaN`. -/
def fadd : F → F → F
  | F.nan, _ => F.nan
  | _, F.nan => F.nan
  | F.inf, F.ninf => F.nan
  | F.ninf, F.inf => F.nan
  | F.inf, _ => F.inf
  | _, F.inf => F.inf
  | F.ninf, _ => F.ninf
  | _, F.ninf => F.ninf
  | F.fin a, F.fin b => F.fin (a + b)

/-- numpy multiplication of the finite scalar `c` with `x` (`c * x`):
`0 * (±inf) = NaN`, sign rules otherwise. -/
def fsmul (c : ℚ) : F → F
  | F.nan => F.nan
  | F.inf => if c = 0 then F.nan else if 0 < c then F.inf else F.ninf
  | F.ninf => if c = 0 then F.nan else if 0 < c then F.ninf else F.inf
  | F.fin q => F.fin (c * q)

/-- numpy division of `x` by a nonnegative integer (the child's visit
count): division by zero yields a signed infinity, `0 / 0 = NaN`. -/
def fdivNat : F → ℕ → F
  | F.nan, _ => F.nan
  | F.inf, _ => F.inf
  | F.ninf, _ => F.ninf
  | F.fin q, 0 => if q = 0 then F.nan else if 0 < q then F.inf else F.ninf
  | F.fin q, (n+1) => F.fin (q / (n+1))

/-- numpy `sqrt`: NaN on NaN and on negative inputs (including `-inf`);
the finite square-root values themselves come from `FloatFuns`. -/
def fsqrt (sq : ℚ → ℚ) : F → F
  | F.nan => F.nan
  | F.inf => F.inf
  | F.ninf => F.nan
  | F.fin q => if q < 0 then F.nan else F.fin (sq q)

/-- numpy `<=` comparison: any comparison involving NaN is false. -/
def fle : F → F → Bool
  | F.nan, _ => false
  | _, F.nan => false
  | F.ninf, _ => true
  | _, F.inf => true
  | F.inf, _ => false
  | F.fin _, F.ninf => false
  | F.fin a, F.fin b => decide (a ≤ b)

/-- The exact values of `np.log` on integer visit counts (`log`) and of
`np.sqrt` on nonnegative finite arguments (`sqrt`), abstracted over the
transcendental functions; recorded with them are the sign facts the
source relies on: `log 1 = 0` and `log n > 0` for `n ≥ 2`. -/
structure FloatFuns : Type where
  log : ℕ → ℚ
  sqrt : ℚ → ℚ
  log_one : log 1 = 0
  log_pos : ∀ n : ℕ, 2 ≤ n → 0 < log n

/-- Model of `np.log` on a visit count: `log 0 = -inf`, finite otherwise. -/
def nplog (fn : FloatFuns) (n : ℕ) : F :=
  if n = 0 then F.ninf else F.fin (fn.log n)

/-- The scanning loop of numpy `argmax` over floats: update the running
maximum when `¬ (x <= max)` and stop at the first NaN (a NaN candidate
passes the update test and is then reported as maximal). -/
def argmaxScan : List F → ℕ → F → ℕ → ℕ
  | [], _, _, mi => mi
  | x :: rest, i, mv, mi =>
    if fle x mv then argmaxScan rest (i + 1) mv mi
    else if x = F.nan then i
    else argmaxScan rest (i + 1) x i

/-- numpy `argmax` on a float list: `none` on the empty list
(`ValueError`), otherwise the index of the first maximum, NaN counting
as maximal. -/
def argmaxF : List F → Option ℕ
  | [] => none
  | x :: rest => if x = F.nan then some 0 else some (argmaxScan rest 1 x 0)

/-- Collect a list of fallible results evaluated left to right, stopping
at the first failure (Python's `map` is consumed eagerly by `list` and
the first exception propagates). -/
def seqOption {α : Type} : List (Option α) → Option (List α)
  | [] => some []
  | none :: _ => none
  | some x :: rest => (seqOption rest).map (fun l => x :: l)

/-- The abstract `GameState` collaborator: exactly the operations the
node consumes, plus the reserved draw identity (`OnlyDrawPlayer`). -/
structure Game (S M P : Type) : Type where
  current_player : S → P
  players : S → List P
  get_valid_moves : S → List M
  make_move : S → M → S
  winner : S → Option P
  drawPlayer : P

/-- Python dict lookup on an association list (keys unique by
construction). -/
def dictLookup {P : Type} [DecidableEq P] : List (P × ℕ) → P → Option ℕ
  | [], _ => none
  | (k, v) :: rest, key => if key = k then some v else dictLookup rest key

/-- Python dict assignment: overwrite the existing binding, or append a
new one. -/
def dictSet {P : Type} [DecidableEq P] : List (P × ℕ) → P → ℕ → List (P × ℕ)
  | [], key, v => [(key, v)]
  | (k, w) :: rest, key, v =>
    if key = k then (key, v) :: rest else (k, w) :: dictSet rest key v

/-- A `MonteCarloTreeSearchNode`: the fields of the Python object.  The
`parent` back-reference is structural (the parent owns the child), so a
node stores its ordered children and operations reading `child.parent`
receive the parent explicitly. -/
inductive Node (S M P : Type) : Type where
  | mk (game_state : S) (action : Option M) (untried_actions : List M)
      (wins : List (P × ℕ)) (visits : ℕ) (children : List (Node S M P)) : Node S M P

def Node.game_state {S M P : Type} : Node S M P → S
  | .mk s _ _ _ _ _ => s

def Node.action {S M P : Type} : Node S M P → Option M
  | .mk _ a _ _ _ _ => a

def Node.untried_actions {S M P : Type} : Node S M P → List M
  | .mk _ _ u _ _ _ => u

def Node.wins {S M P : Type} : Node S M P → List (P × ℕ)
  | .mk _ _ _ w _ _ => w

def Node.visits {S M P : Type} : Node S M P → ℕ
  | .mk _ _ _ _ v _ => v

def Node.children {S M P : Type} : Node S M P → List (Node S M P)
  | .mk _ _ _ _ _ ch => ch

@[simp] theorem Node.game_state_mk {S M P : Type} (s : S) (a : Option M) (u : List M)
    (w : List (P × ℕ)) (v : ℕ) (ch : List (Node S M P)) :
    (Node.mk s a u w v ch).game_state = s := rfl

@[simp] theorem Node.action_mk {S M P : Type} (s : S) (a : Option M) (u : List M)
    (w : List (P × ℕ)) (v : ℕ) (ch : List (Node S M P)) :
    (Node.mk s a u w v ch).action = a := rfl

@[simp] theorem Node.untried_actions_mk {S M P : Type} (s : S) (a : Option M)
    (u : List M) (w : List (P × ℕ)) (v : ℕ) (ch : List (Node S M P)) :
    (Node.mk s a u w v ch).untried_actions = u := rfl

@[simp] theorem Node.wins_mk {S M P : Type} (s : S) (a : Option M) (u : List M)
    (w : List (P × ℕ)) (v : ℕ) (ch : List (Node S M P)) :
    (Node.mk s a u w v ch).wins = w := rfl

@[simp] theorem Node.visits_mk {S M P : Type} (s : S) (a : Option M) (u : List M)
    (w : List (P × ℕ)) (v : ℕ) (ch : List (Node S M P)) :
    (Node.mk s a u w v ch).visits = v := rfl

@[simp] theorem Node.children_mk {S M P : Type} (s : S) (a : Option M) (u : List M)
    (w : List (P × ℕ)) (v : ℕ) (ch : List (Node S M P)) :
    (Node.mk s a u w v ch).children = ch := rfl

/-- The `wins` dict as initialised by `__init__`: one zero entry per player of
the state, then the draw-sentinel entry. -/
def initWins {S M P : Type} [DecidableEq P] (g : Game S M P) (s : S) : List (P × ℕ) :=
  dictSet ((g.players s).map (fun p => (p, 0))) g.drawPlayer 0

/-- Construction (`__init__`): capture the valid moves as `untried_actions`, zero the
statistics, start with no children. -/
def mkNode {S M P : Type} [DecidableEq P] (g : Game S M P) (s : S) (a : Option M) :
    Node S M P :=
  .mk s a (g.get_valid_moves s) (initWins g s) 0 []

/-- Terminal test (`is_terminal`): the game state reports a winner (`is not None`). -/
def is_terminal {S M P : Type} (g : Game S M P) (n : Node S M P) : Bool :=
  (g.winner n.game_state).isSome

/-- Full-expansion test (`is_fully_expanded`): as many children as valid moves. -/
def is_fully_expanded {S M P : Type} (g : Game S M P) (n : Node S M P) : Bool :=
  n.children.length == (g.get_valid_moves n.game_state).length

/-- The `win_ratio` property: `+inf` on an unvisited node, otherwise
`wins[parent.game_state.current_player] / visits`; `none` models the
`AttributeError` of dereferencing a missing parent and the `KeyError`
of a missing dict key. -/
def win_ratio {S M P : Type} [DecidableEq P] (g : Game S M P)
    (parent : Option (Node S M P)) (n : Node S M P) : Option F :=
  if n.visits = 0 then some F.inf
  else
    match parent with
    | none => none
    | some p =>
      (dictLookup n.wins (g.current_player p.game_state)).map
        (fun k => F.fin ((k : ℚ) / (n.visits : ℚ)))

/-- The UCB formula (`get_ucb`): `child.win_ratio + c * sqrt(log(child.parent.visits) /
child.visits)`; the parent argument is `child.parent`, i.e. the node
whose children are compared.  The left summand is evaluated first, as
in Python, so only its exceptions surface. -/
def get_ucb {S M P : Type} [DecidableEq P] (fn : FloatFuns) (g : Game S M P)
    (parent : Node S M P) (child : Node S M P) (c : ℚ) : Option F :=
  match win_ratio g (some parent) child with
  | none => none
  | some wr =>
    some (fadd wr (fsmul c (fsqrt fn.sqrt (fdivNat (nplog fn parent.visits) child.visits))))

/-- Child selection (`select_child_with_max_ucb`): map `get_ucb` over the children and
index by `argmax`. -/
def select_child_with_max_ucb {S M P : Type} [DecidableEq P] (fn : FloatFuns)
    (g : Game S M P) (c : ℚ) (n : Node S M P) : Option (Node S M P) :=
  match seqOption (n.children.map (fun child => get_ucb fn g n child c)) with
  | none => none
  | some vals =>
    match argmaxF vals with
    | none => none
    | some i => n.children[i]?

/-- Expansion (`expand`): pop the last untried action (`list.pop()` is LIFO), apply
it, construct the child (whose parent is this node), append it to
`children` and return it together with the updated parent; `none`
models the `IndexError` of popping from an empty list. -/
def expand {S M P : Type} [DecidableEq P] (g : Game S M P) (n : Node S M P) :
    Option (Node S M P × Node S M P) :=
  match n with
  | .mk s a untried wins visits children =>
    match untried.getLast? with
    | none => none
    | some act =>
      let child := mkNode g (g.make_move s act) (some act)
      some (child, .mk s a untried.dropLast wins visits (children ++ [child]))

/-- The child returned by `select_child_with_max_ucb` is one of the
node's children. -/
theorem select_child_mem {S M P : Type} [DecidableEq P] {fn : FloatFuns} {g : Game S M P}
    {c : ℚ} {n ch : Node S M P}
    (h : select_child_with_max_ucb fn g c n = some ch) : ch ∈ n.children := by
  unfold select_child_with_max_ucb at h
  split at h
  · exact absurd h (by simp)
  · split at h
    · exact absurd h (by simp)
    · exact List.getElem?_mem h

theorem sizeOf_lt_of_mem_children {S M P : Type} {ch n : Node S M P}
    (h : ch ∈ n.children) : sizeOf ch < sizeOf n := by
  cases n with
  | mk s a u w v children =>
    have h2 : sizeOf ch < sizeOf children := List.sizeOf_lt_of_mem h
    simp only [Node.mk.sizeOf_spec]
    omega

/-- Selection (`select`): starting at the receiver, stop at a terminal node, return
the freshly expanded child of the first non-fully-expanded node reached,
and otherwise descend through the child maximising UCB.  `none` models
an exception escaping from `expand` or from the argmax. -/
def select {S M P : Type} [DecidableEq P] (fn : FloatFuns) (g : Game S M P) (c : ℚ)
    (n : Node S M P) : Option (Node S M P) :=
  if is_terminal g n then some n
  else if is_fully_expanded g n = false then (expand g n).map Prod.fst
  else
    match h : select_child_with_max_ucb fn g c n with
    | none => none
    | some ch => select fn g c ch
termination_by sizeOf n
decreasing_by exact sizeOf_lt_of_mem_children (select_child_mem h)

/-- One `backpropagate` frame on a single node: `visits += 1`, then
`wins[who_won] += 1`; the Boolean records whether the dict update
succeeded (`false` models the `KeyError`, which is raised after the
visit increment but before any change to `wins`). -/
def backpropStep {S M P : Type} [DecidableEq P] (w : P) : Node S M P → Node S M P × Bool
  | .mk s a u wins v ch =>
    match dictLookup wins w with
    | none => (.mk s a u wins (v + 1) ch, false)
    | some k => (.mk s a u (dictSet wins w (k + 1)) (v + 1) ch, true)

/-- Backpropagation (`backpropagate(who_won)`) along the explicit chain from a node (the
head) to the root (the last element, whose `parent` is `None`): update
each node in turn, recursing to the parent only when the update
succeeded. -/
def backpropagate {S M P : Type} [DecidableEq P] (w : P) :
    List (Node S M P) → List (Node S M P) × Bool
  | [] => ([], true)
  | n :: rest =>
    match backpropStep w n with
    | (n2, false) => (n2 :: rest, false)
    | (n2, true) =>
      match backpropagate w rest with
      | (rest2, ok) => (n2 :: rest2, ok)

/-- Predicate transformer: `p` holds at a node and at every node of its subtree. -/
inductive TreeAll {S M P : Type} (p : Node S M P → Prop) : Node S M P → Prop where
  | mk {s : S} {a : Option M} {u : List M} {w : List (P × ℕ)} {v : ℕ}
      {ch : List (Node S M P)} :
      p (.mk s a u w v ch) → (∀ c ∈ ch, TreeAll p c) → TreeAll p (.mk s a u w v ch)

theorem TreeAll.self {S M P : Type} {p : Node S M P → Prop} {n : Node S M P}
    (h : TreeAll p n) : p n := by
  cases h with
  | mk hp _ => exact hp

theorem TreeAll.child {S M P : Type} {p : Node S M P → Prop} {n c : Node S M P}
    (h : TreeAll p n) (hc : c ∈ n.children) : TreeAll p c := by
  cases h with
  | mk _ hch => exact hch c hc

/-- Nodes reachable by construction followed by any sequence of
(successful) `expand` calls. -/
inductive ExpandReach {S M P : Type} [DecidableEq P] (g : Game S M P) :
    Node S M P → Prop where
  | init (s : S) (a : Option M) : ExpandReach g (mkNode g s a)
  | step {n c n2 : Node S M P} : ExpandReach g n → expand g n = some (c, n2) →
      ExpandReach g n2

theorem dictLookup_dictSet_self {P : Type} [DecidableEq P] (d : List (P × ℕ)) (k : P)
    (v : ℕ) : dictLookup (dictSet d k v) k = some v := by
  induction d with
  | nil => simp [dictSet, dictLookup]
  | cons hd tl ih =>
    obtain ⟨k2, v2⟩ := hd
    by_cases h : k = k2
    · subst h; simp [dictSet, dictLookup]
    · simp [dictSet, dictLookup, h, ih]

theorem dictLookup_dictSet_ne {P : Type} [DecidableEq P] (d : List (P × ℕ)) (k p : P)
    (v : ℕ) (hne : p ≠ k) : dictLookup (dictSet d k v) p = dictLookup d p := by
  induction d with
  | nil => simp [dictSet, dictLookup, hne]
  | cons hd tl ih =>
    obtain ⟨k2, v2⟩ := hd
    by_cases h : k = k2
    · subst h; simp [dictSet, dictLookup, hne]
    · by_cases h2 : p = k2 <;> simp [dictSet, dictLookup, h, h2, ih]

/-- What a successful `expand` produces, in terms of the input node. -/
theorem expand_shape {S M P : Type} [DecidableEq P] {g : Game S M P} {n c n2 : Node S M P}
    (h : expand g n = some (c, n2)) :
    ∃ act, n.untried_actions.getLast? = some act ∧
      c = mkNode g (g.make_move n.game_state act) (some act) ∧
      n2 = Node.mk n.game_state n.action n.untried_actions.dropLast n.wins n.visits
        (n.children ++ [c]) := by
  cases n with
  | mk s a u w v ch =>
    unfold expand at h
    dsimp only at h
    simp only [Node.game_state, Node.action, Node.untried_actions, Node.wins, Node.visits,
      Node.children]
    split at h
    · exact absurd h (by simp)
    · rename_i act hl
      simp only [Option.some.injEq, Prod.mk.injEq] at h
      obtain ⟨hc, hn⟩ := h
      subst hc
      exact ⟨act, hl, rfl, hn.symm⟩

theorem expand_eq_none_iff {S M P : Type} [DecidableEq P] (g : Game S M P)
    (n : Node S M P) : expand g n = none ↔ n.untried_actions = [] := by
  cases n with
  | mk s a u w v ch =>
    unfold expand
    dsimp only
    simp only [Node.untried_actions]
    cases hl : u.getLast? with
    | none => simpa using List.getLast?_eq_none_iff.mp hl
    | some act =>
      constructor
      · intro h; exact absurd h (by simp)
      · intro h
        rw [h] at hl
        exact absurd hl (by simp)

theorem select_terminal {S M P : Type} [DecidableEq P] (fn : FloatFuns) (g : Game S M P)
    (c : ℚ) (n : Node S M P) (h : is_terminal g n = true) : select fn g c n = some n := by
  rw [select]
  simp [h]

theorem select_at_expandable {S M P : Type} [DecidableEq P] (fn : FloatFuns)
    (g : Game S M P) (c : ℚ) (n : Node S M P) (h1 : is_terminal g n = false)
    (h2 : is_fully_expanded g n = false) :
    select fn g c n = (expand g n).map Prod.fst := by
  rw [select]
  simp [h1, h2]

theorem select_descend {S M P : Type} [DecidableEq P] (fn : FloatFuns) (g : Game S M P)
    (c : ℚ) (n ch : Node S M P) (h1 : is_terminal g n = false)
    (h2 : is_fully_expanded g n = true)
    (hch : select_child_with_max_ucb fn g c n = some ch) :
    select fn g c n = select fn g c ch := by
  rw [select]
  simp only [h1, h2, Bool.false_eq_true, if_false, Bool.true_eq_false, if_true]
  split
  · rename_i heq
    rw [heq] at hch
    exact absurd hch (by simp)
  · rename_i ch2 heq
    rw [heq] at hch
    injection hch with h3
    rw [h3]

theorem seqOption_some_iff {α : Type} (L : List (Option α)) (l : List α) :
    seqOption L = some l ↔ L = l.map some := by
  induction L generalizing l with
  | nil => cases l <;> simp [seqOption]
  | cons hd tl ih =>
    cases hd with
    | none => cases l <;> simp [seqOption]
    | some x =>
      cases l with
      | nil => simp [seqOption, Option.map_eq_some']
      | cons y ys =>
        simp only [seqOption, Option.map_eq_some', ih, List.map_cons, List.cons.injEq,
          Option.some.injEq]
        constructor
        · rintro ⟨t, ht, rfl, rfl⟩; exact ⟨rfl, ht⟩
        · rintro ⟨rfl, ht⟩; exact ⟨ys, ht, rfl, rfl⟩

theorem argmaxScan_le (l : List F) :
    ∀ i mi mv, argmaxScan l i mv mi = mi ∨
      (i ≤ argmaxScan l i mv mi ∧ argmaxScan l i mv mi < i + l.length) := by
  induction l with
  | nil => intro i mi mv; left; rfl
  | cons x rest ih =>
    intro i mi mv
    cases h1 : fle x mv with
    | true =>
      simp only [argmaxScan, h1, if_true]
      rcases ih (i + 1) mi mv with h | ⟨h2, h3⟩
      · left; exact h
      · right; simp only [List.length_cons]; omega
    | false =>
      by_cases h2 : x = F.nan
      · subst h2
        have he : argmaxScan (F.nan :: rest) i mv mi = i := by
          simp [argmaxScan, h1]
        rw [he]
        right; simp only [List.length_cons]; omega
      · simp only [argmaxScan, h1, h2, Bool.false_eq_true, if_false]
        rcases ih (i + 1) i x with h | ⟨h3, h4⟩
        · right; rw [h]; simp only [List.length_cons]; omega
        · right; simp only [List.length_cons]; omega

theorem argmaxF_lt_length (l : List F) (i : ℕ) (h : argmaxF l = some i) :
    i < l.length := by
  cases l with
  | nil => exact absurd h (by simp [argmaxF])
  | cons x rest =>
    simp only [argmaxF] at h
    by_cases hx : x = F.nan
    · simp only [hx, if_true, Option.some.injEq] at h
      simp [← h]
    · simp only [hx, if_false, Option.some.injEq] at h
      rcases argmaxScan_le rest 1 0 x with h2 | ⟨h2, h3⟩
      · simp [← h, h2]
      · simp only [List.length_cons]; omega

/-- A tiny concrete two-player game over natural-number states, used to
instantiate the theorems: states below 2 offer two moves, larger states
are won by player 1; player 0 is the draw sentinel. -/
def demoGame : Game ℕ ℕ ℕ where
  current_player := fun _ => 1
  players := fun _ => [1, 2]
  get_valid_moves := fun s => if s < 2 then [3, 4] else []
  make_move := fun s m => s + m
  winner := fun s => if s < 2 then none else some 1
  drawPlayer := 0

/-- A computable instance of the abstracted transcendental functions,
satisfying the recorded sign facts. -/
def demoFuns : FloatFuns where
  log := fun n => (n : ℚ) - 1
  sqrt := fun q => q
  log_one := by norm_num
  log_pos := by
    intro n hn
    have h2 : (2 : ℚ) ≤ (n : ℚ) := by exact_mod_cast hn
    show 0 < (n : ℚ) - 1
    linarith

/-- C4: for a non-root node, `win_ratio` is `+inf` when `visits = 0`,
and otherwise `wins[parent.game_state.current_player] / visits` — the
ratio is taken from the perspective of the player to move in the parent
state. -/
theorem ratio_formula {S M P : Type} [DecidableEq P] (g : Game S M P)
    (p n : Node S M P) :
    (n.visits = 0 → win_ratio g (some p) n = some F.inf) ∧
    (∀ k : ℕ, 0 < n.visits →
      dictLookup n.wins (g.current_player p.game_state) = some k →
      win_ratio g (some p) n = some (F.fin ((k : ℚ) / (n.visits : ℚ)))) := by
  constructor
  · intro h
    simp [ win_ratio, h]
  · intro k hv hk
    simp [ win_ratio, Nat.pos_iff_ne_zero.mp hv, hk]

/-- C4 witness: the spec scenario — 5 visits, 3 wins for the parent's
current player, ratio `3/5`. -/
theorem ratio_formula_witness :
    win_ratio demoGame (some (Node.mk 0 none [] [] 0 []))
      (Node.mk 5 none [] [(1, 3), (2, 2), (0, 0)] 5 []) = some (F.fin (3 / 5)) := by
  have h := (ratio_formula demoGame (Node.mk 0 none [] [] 0 [])
    (Node.mk 5 none [] [(1, 3), (2, 2), (0, 0)] 5 [])).2 3 (by decide) (by decide)
  simpa using h

/-- C9: reading `win_ratio` on a root (no parent) fails — it
dereferences the missing parent — unless `visits = 0`, where the
short-circuit returns `+inf` before the dereference. -/
theorem root_ratio_read {S M P : Type} [DecidableEq P] (g : Game S M P)
    (n : Node S M P) :
    (0 < n.visits → win_ratio g none n = none) ∧
    (n.visits = 0 → win_ratio g none n = some F.inf) := by
  constructor
  · intro hv
    simp [ win_ratio, Nat.pos_iff_ne_zero.mp hv]
  · intro h
    simp [ win_ratio, h]

/-- C9 witness: a visited root's ratio read fails. -/
theorem root_ratio_read_witness :
    win_ratio demoGame none (Node.mk 0 none [] [(1, 0)] 1 []) = none :=
  (root_ratio_read demoGame (Node.mk 0 none [] [(1, 0)] 1 [])).1 (by decide)

/-- C5: on a node with untried actions, `expand` pops exactly the last
untried action, applies it to the game state, builds the child from the
new state with that action, appends it to `children`, and returns it;
`untried_actions` shrinks by one and `children` grows by one. -/
theorem expand_pops_last {S M P : Type} [DecidableEq P] (g : Game S M P)
    (n : Node S M P) (hne : n.untried_actions ≠ []) :
    ∃ act child n2,
      n.untried_actions.getLast? = some act ∧
      expand g n = some (child, n2) ∧
      child.game_state = g.make_move n.game_state act ∧
      child.action = some act ∧
      child.untried_actions = g.get_valid_moves (g.make_move n.game_state act) ∧
      child.wins = initWins g (g.make_move n.game_state act) ∧
      child.visits = 0 ∧ child.children = [] ∧
      n2.untried_actions = n.untried_actions.dropLast ∧
      n2.untried_actions.length + 1 = n.untried_actions.length ∧
      n2.children = n.children ++ [child] ∧
      n2.children.length = n.children.length + 1 ∧
      n2.game_state = n.game_state ∧ n2.action = n.action ∧
      n2.wins = n.wins ∧ n2.visits = n.visits := by
  cases n with
  | mk s a u w v ch =>
    simp only [Node.untried_actions] at hne
    obtain ⟨act, hl⟩ := Option.isSome_iff_exists.mp (List.getLast?_isSome.mpr hne)
    have he : expand g (Node.mk s a u w v ch) =
        some (mkNode g (g.make_move s act) (some act),
          Node.mk s a u.dropLast w v (ch ++ [mkNode g (g.make_move s act) (some act)])) := by
      unfold expand
      dsimp only
      rw [hl]
    refine ⟨act, _, _, hl, he, rfl, rfl, rfl, rfl, rfl, rfl, rfl, ?_, rfl, ?_, rfl, rfl,
      rfl, rfl⟩
    · simp only [Node.untried_actions, List.length_dropLast]
      have : u.length ≠ 0 := fun hz => hne (List.length_eq_zero.mp hz)
      omega
    · simp [Node.children]

/-- C5 witness: expanding a node with untried actions `[3, 4]` pops `4`. -/
theorem expand_pops_last_witness :
    ∃ act child n2,
      (Node.mk 0 none [3, 4] [(1, 0), (2, 0), (0, 0)] 0 [] :
        Node ℕ ℕ ℕ).untried_actions.getLast? = some act ∧
      expand demoGame (Node.mk 0 none [3, 4] [(1, 0), (2, 0), (0, 0)] 0 []) =
        some (child, n2) ∧
      child.game_state = demoGame.make_move 0 act ∧
      child.action = some act ∧
      child.untried_actions = demoGame.get_valid_moves (demoGame.make_move 0 act) ∧
      child.wins = initWins demoGame (demoGame.make_move 0 act) ∧
      child.visits = 0 ∧ child.children = [] ∧
      n2.untried_actions = [3] ∧ n2.untried_actions.length + 1 = 2 ∧
      n2.children = [] ++ [child] ∧ n2.children.length = 0 + 1 ∧
      n2.game_state = 0 ∧ n2.action = none ∧
      n2.wins = [(1, 0), (2, 0), (0, 0)] ∧ n2.visits = 0 := by
  have h := expand_pops_last demoGame
    (Node.mk 0 none [3, 4] [(1, 0), (2, 0), (0, 0)] 0 []) (by decide)
  simpa [Node.game_state, Node.action, Node.untried_actions, Node.wins, Node.visits,
    Node.children] using h

/-- C7: calling `expand` on a node whose `untried_actions` is empty
fails (the pop from the empty list raises) instead of returning a
node. -/
theorem expand_exhausted_fails {S M P : Type} [DecidableEq P] (g : Game S M P)
    (n : Node S M P) (h : n.untried_actions = []) : expand g n = none :=
  (expand_eq_none_iff g n).mpr h

/-- C7 witness: a concrete exhausted node. -/
theorem expand_exhausted_fails_witness :
    expand demoGame (Node.mk 5 none [] [(1, 0), (2, 0), (0, 0)] 0 []) = none :=
  expand_exhausted_fails demoGame
    (Node.mk 5 none [] [(1, 0), (2, 0), (0, 0)] 0 []) rfl

/-- C3: when the winner is a key of every node's `wins` on the chain,
`backpropagate` succeeds and updates every node of the chain — the node
itself and each ancestor up to and including the root — incrementing
`visits` and `wins[winner]` by exactly one each, leaving every other
key and every other field unchanged. -/
theorem backpropagate_updates_chain {S M P : Type} [DecidableEq P] (w : P)
    (chain : List (Node S M P))
    (hk : ∀ m ∈ chain, (dictLookup m.wins w).isSome = true) :
    (backpropagate w chain).2 = true ∧
    (backpropagate w chain).1.length = chain.length ∧
    (∀ i : ℕ, ∀ m m2 : Node S M P, chain[i]? = some m →
      (backpropagate w chain).1[i]? = some m2 →
      m2.visits = m.visits + 1 ∧
      dictLookup m2.wins w = (dictLookup m.wins w).map (fun k => k + 1) ∧
      (∀ p : P, p ≠ w → dictLookup m2.wins p = dictLookup m.wins p) ∧
      m2.game_state = m.game_state ∧ m2.action = m.action ∧
      m2.untried_actions = m.untried_actions ∧ m2.children = m.children) := by
  induction chain with
  | nil => simp [backpropagate]
  | cons nd rest ih =>
    have hnd := hk nd (by simp)
    obtain ⟨k, hkk⟩ := Option.isSome_iff_exists.mp hnd
    obtain ⟨hok, hlen, helem⟩ := ih (fun m hm => hk m (List.mem_cons_of_mem _ hm))
    cases nd with
    | mk s a u wins v ch =>
      simp only [Node.wins] at hkk
      have hstep : backpropStep w (Node.mk s a u wins v ch) =
          (Node.mk s a u (dictSet wins w (k + 1)) (v + 1) ch, true) := by
        unfold backpropStep
        dsimp only
        rw [hkk]
      rcases hrest : backpropagate w rest with ⟨rest2, ok⟩
      have hbp : backpropagate w (Node.mk s a u wins v ch :: rest) =
          (Node.mk s a u (dictSet wins w (k + 1)) (v + 1) ch :: rest2, ok) := by
        unfold backpropagate
        rw [hstep, hrest]
      rw [hbp]
      rw [hrest] at hok hlen helem
      refine ⟨hok, by simpa using hlen, ?_⟩
      intro i m m2 hm hm2
      cases i with
      | zero =>
        simp only [List.getElem?_cons_zero, Option.some.injEq] at hm hm2
        subst hm
        subst hm2
        refine ⟨rfl, ?_, ?_, rfl, rfl, rfl, rfl⟩
        · simp [Node.wins, dictLookup_dictSet_self, hkk]
        · intro p hp
          simp [Node.wins, dictLookup_dictSet_ne _ _ _ _ hp]
      | succ j =>
        simp only [List.getElem?_cons_succ] at hm hm2
        exact helem j m m2 hm hm2

/-- C3 witness: a two-node chain, fully updated with success. -/
theorem backpropagate_updates_chain_witness :
    (backpropagate 1 [Node.mk 5 none [] [(1, 0), (2, 0), (0, 0)] 0 [],
      (Node.mk 0 none [] [(1, 2), (2, 1), (0, 0)] 3 [] : Node ℕ ℕ ℕ)]).2 = true :=
  (backpropagate_updates_chain 1 [Node.mk 5 none [] [(1, 0), (2, 0), (0, 0)] 0 [],
    Node.mk 0 none [] [(1, 2), (2, 1), (0, 0)] 3 []] (by decide)).1

/-- C8: `backpropagate` with a winner that is not a key of the node's
`wins` fails (dict `KeyError`) and silently inserts no new key — the
`wins` mappings of the node and of every ancestor keep exactly their
old key-value structure. -/
theorem backpropagate_unknown_key {S M P : Type} [DecidableEq P] (w : P)
    (n : Node S M P) (rest : List (Node S M P))
    (hw : dictLookup n.wins w = none) :
    (backpropagate w (n :: rest)).2 = false ∧
    (backpropagate w (n :: rest)).1.map Node.wins = n.wins :: rest.map Node.wins := by
  cases n with
  | mk s a u wins v ch =>
    simp only [Node.wins] at hw
    have hstep : backpropStep w (Node.mk s a u wins v ch) =
        (Node.mk s a u wins (v + 1) ch, false) := by
      unfold backpropStep
      dsimp only
      rw [hw]
    have hbp : backpropagate w (Node.mk s a u wins v ch :: rest) =
        (Node.mk s a u wins (v + 1) ch :: rest, false) := by
      unfold backpropagate
      rw [hstep]
    rw [hbp]
    simp [Node.wins]

/-- C8 witness: winner `7` is not a key — the call fails and the `wins`
mappings are untouched. -/
theorem backpropagate_unknown_key_witness :
    (backpropagate 7 [Node.mk 5 none [] [(1, 0), (2, 0), (0, 0)] 0 [],
      (Node.mk 0 none [] [(1, 2), (2, 1), (0, 0)] 3 [] : Node ℕ ℕ ℕ)]).2 = false :=
  (backpropagate_unknown_key 7 (Node.mk 5 none [] [(1, 0), (2, 0), (0, 0)] 0 [])
    [Node.mk 0 none [] [(1, 2), (2, 1), (0, 0)] 3 []] (by decide)).1

/-- C10: on an unknown winner key, the failure happens after the node's
`visits` increment: the result is exactly the original chain with the
head's visit count bumped, `wins` unchanged, and no ancestor touched —
the error is not atomic with respect to the node's state. -/
theorem backpropagate_nonatomic_on_error {S M P : Type} [DecidableEq P] (w : P)
    (s : S) (a : Option M) (u : List M) (wins : List (P × ℕ)) (v : ℕ)
    (ch : List (Node S M P)) (rest : List (Node S M P))
    (hw : dictLookup wins w = none) :
    backpropagate w (Node.mk s a u wins v ch :: rest) =
      (Node.mk s a u wins (v + 1) ch :: rest, false) := by
  have hstep : backpropStep w (Node.mk s a u wins v ch) =
      (Node.mk s a u wins (v + 1) ch, false) := by
    unfold backpropStep
    dsimp only
    rw [hw]
  unfold backpropagate
  rw [hstep]

/-- C10 witness: the bumped-visits, unchanged-wins result on a concrete
chain. -/
theorem backpropagate_nonatomic_on_error_witness :
    backpropagate 7 [Node.mk 5 none [] [(1, 0), (2, 0), (0, 0)] 1 [],
      (Node.mk 0 none [] [(1, 2), (2, 1), (0, 0)] 3 [] : Node ℕ ℕ ℕ)] =
      ([Node.mk 5 none [] [(1, 0), (2, 0), (0, 0)] 2 [],
        Node.mk 0 none [] [(1, 2), (2, 1), (0, 0)] 3 []], false) :=
  backpropagate_nonatomic_on_error 7 5 none [] [(1, 0), (2, 0), (0, 0)] 1 []
    [Node.mk 0 none [] [(1, 2), (2, 1), (0, 0)] 3 []] (by decide)

/-- The expansion invariant: construction followed by `expand` calls
keeps `children.length + untried_actions.length` equal to the number of
valid moves at the node's state. -/
theorem expandReach_inv {S M P : Type} [DecidableEq P] {g : Game S M P}
    {n : Node S M P} (h : ExpandReach g n) :
    n.children.length + n.untried_actions.length =
      (g.get_valid_moves n.game_state).length := by
  induction h with
  | init s a => simp [mkNode, Node.children, Node.untried_actions, Node.game_state]
  | step hr he ih =>
    rename_i m c m2
    obtain ⟨act, hl, hc, hn2⟩ := expand_shape he
    subst hn2
    rcases m with ⟨s, a, u, wn, v, ch⟩
    simp only [Node.children, Node.untried_actions, Node.game_state, List.length_append,
      List.length_dropLast, List.length_cons, List.length_nil] at ih hl ⊢
    have hne : u.length ≠ 0 := by
      intro hz
      rw [List.length_eq_zero.mp hz] at hl
      exact absurd hl (by simp)
    omega

/-- C6: every node reachable by construction plus `expand` calls has at
most as many children as valid moves, with equality exactly when
`is_fully_expanded`. -/
theorem children_le_valid_moves {S M P : Type} [DecidableEq P] (g : Game S M P)
    (n : Node S M P) (h : ExpandReach g n) :
    n.children.length ≤ (g.get_valid_moves n.game_state).length ∧
    (n.children.length = (g.get_valid_moves n.game_state).length ↔
      is_fully_expanded g n = true) := by
  have hinv := expandReach_inv h
  exact ⟨by omega, by simp [is_fully_expanded]⟩

/-- C6 witness: a freshly constructed root. -/
theorem children_le_valid_moves_witness :
    (mkNode demoGame 0 none).children.length ≤
      (demoGame.get_valid_moves (mkNode demoGame 0 none).game_state).length ∧
    ((mkNode demoGame 0 none).children.length =
        (demoGame.get_valid_moves (mkNode demoGame 0 none).game_state).length ↔
      is_fully_expanded demoGame (mkNode demoGame 0 none) = true) :=
  children_le_valid_moves demoGame (mkNode demoGame 0 none)
    (ExpandReach.init 0 none)

theorem argmaxScan_inf_acc (l : List F) (hnn : F.nan ∉ l) :
    ∀ i mi : ℕ, argmaxScan l i F.inf mi = mi := by
  induction l with
  | nil => intro i mi; rfl
  | cons x rest ih =>
    intro i mi
    have hx : x ≠ F.nan := fun hh => hnn (hh ▸ List.mem_cons_self x rest)
    have hfle : fle x F.inf = true := by
      cases x with
      | nan => exact absurd rfl hx
      | inf => rfl
      | ninf => rfl
      | fin q => rfl
    simp only [argmaxScan, hfle, if_true]
    exact ih (fun hm => hnn (List.mem_cons_of_mem _ hm)) (i + 1) mi

theorem argmaxScan_first_nan :
    ∀ (l : List F) (i mi : ℕ) (mv : F), F.nan ∈ l → mv ≠ F.nan →
      argmaxScan l i mv mi = i + l.findIdx (fun x => decide (x = F.nan)) := by
  intro l
  induction l with
  | nil => intro i mi mv hmem _; exact absurd hmem (by simp)
  | cons x rest ih =>
    intro i mi mv hmem hmv
    by_cases hx : x = F.nan
    · subst hx
      have hfle : fle F.nan mv = false := by cases mv <;> rfl
      simp [argmaxScan, hfle, List.findIdx_cons]
    · have hrest : F.nan ∈ rest := by
        rcases List.mem_cons.mp hmem with h | h
        · exact absurd h.symm hx
        · exact h
      have hpx : decide (x = F.nan) = false := by simp [hx]
      rw [List.findIdx_cons]
      cases hfle : fle x mv with
      | true =>
        simp only [argmaxScan, hfle, if_true]
        rw [ih (i + 1) mi mv hrest hmv]
        simp only [hpx, cond_false]
        omega
      | false =>
        simp only [argmaxScan, hfle, Bool.false_eq_true, if_false, hx]
        rw [ih (i + 1) i x hrest hx]
        simp only [decide_False, cond_false]
        omega

theorem argmaxScan_first_inf :
    ∀ (l : List F) (i mi : ℕ) (mv : F), F.inf ∈ l → F.nan ∉ l →
      mv ≠ F.inf → mv ≠ F.nan →
      argmaxScan l i mv mi = i + l.findIdx (fun x => decide (x = F.inf)) := by
  intro l
  induction l with
  | nil => intro i mi mv hmem _ _ _; exact absurd hmem (by simp)
  | cons x rest ih =>
    intro i mi mv hmem hnn hmv hmvn
    have hrest_nn : F.nan ∉ rest := fun hm => hnn (List.mem_cons_of_mem _ hm)
    by_cases hx : x = F.inf
    · subst hx
      have hfle : fle F.inf mv = false := by
        cases mv with
        | nan => exact absurd rfl hmvn
        | inf => exact absurd rfl hmv
        | ninf => rfl
        | fin q => rfl
      have hstep : argmaxScan (F.inf :: rest) i mv mi = argmaxScan rest (i + 1) F.inf i := by
        simp [argmaxScan, hfle]
      rw [hstep, argmaxScan_inf_acc rest hrest_nn]
      simp [List.findIdx_cons]
    · have hxn : x ≠ F.nan := fun hh => hnn (hh ▸ List.mem_cons_self _ _)
      have hrest : F.inf ∈ rest := by
        rcases List.mem_cons.mp hmem with h | h
        · exact absurd h.symm hx
        · exact h
      have hpx : decide (x = F.inf) = false := by simp [hx]
      rw [List.findIdx_cons]
      cases hfle : fle x mv with
      | true =>
        simp only [argmaxScan, hfle, if_true]
        rw [ih (i + 1) mi mv hrest hrest_nn hmv hmvn]
        simp only [hpx, cond_false]
        omega
      | false =>
        simp only [argmaxScan, hfle, Bool.false_eq_true, if_false, hxn]
        rw [ih (i + 1) i x hrest hrest_nn hx hxn]
        simp only [hpx, cond_false]
        omega

theorem argmaxF_first_nan (l : List F) (hmem : F.nan ∈ l) :
    argmaxF l = some (l.findIdx (fun x => decide (x = F.nan))) := by
  cases l with
  | nil => exact absurd hmem (by simp)
  | cons x rest =>
    by_cases hx : x = F.nan
    · subst hx
      simp [argmaxF, List.findIdx_cons]
    · have hrest : F.nan ∈ rest := by
        rcases List.mem_cons.mp hmem with h | h
        · exact absurd h.symm hx
        · exact h
      have hpx : decide (x = F.nan) = false := by simp [hx]
      simp only [argmaxF, hx, if_false, Option.some.injEq]
      rw [argmaxScan_first_nan rest 1 0 x hrest hx, List.findIdx_cons]
      simp only [hpx, cond_false]
      omega

theorem argmaxF_first_inf (l : List F) (hmem : F.inf ∈ l) (hnn : F.nan ∉ l) :
    argmaxF l = some (l.findIdx (fun x => decide (x = F.inf))) := by
  cases l with
  | nil => exact absurd hmem (by simp)
  | cons x rest =>
    have hxn : x ≠ F.nan := fun hh => hnn (hh ▸ List.mem_cons_self _ _)
    have hrest_nn : F.nan ∉ rest := fun hm => hnn (List.mem_cons_of_mem _ hm)
    by_cases hx : x = F.inf
    · subst hx
      simp only [argmaxF, Option.some.injEq]
      rw [if_neg (by intro hh; exact F.noConfusion hh)]
      rw [argmaxScan_inf_acc rest hrest_nn, List.findIdx_cons]
      simp
    · have hrest : F.inf ∈ rest := by
        rcases List.mem_cons.mp hmem with h | h
        · exact absurd h.symm hx
        · exact h
      have hpx : decide (x = F.inf) = false := by simp [hx]
      simp only [argmaxF, hxn, if_false, Option.some.injEq]
      rw [argmaxScan_first_inf rest 1 0 x hrest hrest_nn hx hxn, List.findIdx_cons]
      simp only [hpx, cond_false]
      omega

theorem seqOption_of_all_isSome {α : Type} (L : List (Option α))
    (h : ∀ o ∈ L, o.isSome = true) : ∃ l, seqOption L = some l := by
  induction L with
  | nil => exact ⟨[], rfl⟩
  | cons o rest ih =>
    obtain ⟨x, hx⟩ := Option.isSome_iff_exists.mp (h o (by simp))
    obtain ⟨l, hl⟩ := ih (fun o2 ho => h o2 (List.mem_cons_of_mem _ ho))
    subst hx
    exact ⟨x :: l, by simp [seqOption, hl]⟩

/-- The UCB value every unvisited child receives: `inf + c *
sqrt(log(parentVisits) / 0)`. -/
def uval (fn : FloatFuns) (c : ℚ) (pv : ℕ) : F :=
  fadd F.inf (fsmul c (fsqrt fn.sqrt (fdivNat (nplog fn pv) 0)))

theorem get_ucb_unvisited {S M P : Type} [DecidableEq P] (fn : FloatFuns)
    (g : Game S M P) (parent child : Node S M P) (c : ℚ) (h : child.visits = 0) :
    get_ucb fn g parent child c = some (uval fn c parent.visits) := by
  have hwr : win_ratio g (some parent) child = some F.inf := by
    simp [ win_ratio, h]
  unfold get_ucb
  rw [hwr, h]
  rfl

/-- Whatever the parent's visit count and the exploration constant, the
unvisited-child UCB value is NaN or `+inf` (never a finite value). -/
theorem uval_nan_or_inf (fn : FloatFuns) (c : ℚ) (pv : ℕ) :
    uval fn c pv = F.nan ∨ uval fn c pv = F.inf := by
  match pv with
  | 0 => left; rfl
  | 1 =>
    left
    unfold uval nplog
    rw [fn.log_one]
    rfl
  | (k + 2) =>
    have hpos := fn.log_pos (k + 2) (by omega)
    have h1 : nplog fn (k + 2) = F.fin (fn.log (k + 2)) := by simp [nplog]
    have h2 : fdivNat (F.fin (fn.log (k + 2))) 0 = F.inf := by
      simp [fdivNat, ne_of_gt hpos, hpos]
    unfold uval
    rw [h1, h2]
    rcases lt_trichotomy c 0 with hc | hc | hc
    · left
      simp [fsqrt, fsmul, fadd, ne_of_lt hc, not_lt.mpr (le_of_lt hc)]
    · left
      simp [fsqrt, fsmul, fadd, hc]
    · right
      simp [fsqrt, fsmul, fadd, ne_of_gt hc, hc]

theorem get_ucb_visited_fin {S M P : Type} [DecidableEq P] (fn : FloatFuns)
    (g : Game S M P) (parent child : Node S M P) (c : ℚ) (hvis : 0 < child.visits)
    (hpv : child.visits ≤ parent.visits)
    (hkey : (dictLookup child.wins (g.current_player parent.game_state)).isSome = true) :
    ∃ q : ℚ, get_ucb fn g parent child c = some (F.fin q) := by
  obtain ⟨k, hkk⟩ := Option.isSome_iff_exists.mp hkey
  have hwr : win_ratio g (some parent) child =
      some (F.fin ((k : ℚ) / (child.visits : ℚ))) := by
    simp [ win_ratio, Nat.pos_iff_ne_zero.mp hvis, hkk]
  have hp1 : 0 < parent.visits := lt_of_lt_of_le hvis hpv
  have hlog_nonneg : 0 ≤ fn.log parent.visits := by
    match hp : parent.visits with
    | 0 => omega
    | 1 => rw [fn.log_one]
    | (j + 2) => exact le_of_lt (fn.log_pos (j + 2) (by omega))
  have hlog : nplog fn parent.visits = F.fin (fn.log parent.visits) := by
    simp [nplog, Nat.pos_iff_ne_zero.mp hp1]
  obtain ⟨m, hm⟩ : ∃ m, child.visits = m + 1 := ⟨child.visits - 1, by omega⟩
  have hdiv : fdivNat (F.fin (fn.log parent.visits)) child.visits =
      F.fin (fn.log parent.visits / (child.visits : ℚ)) := by
    rw [hm]
    simp only [fdivNat]
    norm_num
  have harg_nonneg : 0 ≤ fn.log parent.visits / (child.visits : ℚ) :=
    div_nonneg hlog_nonneg (by positivity)
  have hsqrt : fsqrt fn.sqrt (F.fin (fn.log parent.visits / (child.visits : ℚ))) =
      F.fin (fn.sqrt (fn.log parent.visits / (child.visits : ℚ))) := by
    simp [fsqrt, not_lt.mpr harg_nonneg]
  refine ⟨(k : ℚ) / (child.visits : ℚ) +
    c * fn.sqrt (fn.log parent.visits / (child.visits : ℚ)), ?_⟩
  unfold get_ucb
  rw [hwr, hlog, hdiv, hsqrt]
  rfl

/-- C2: whenever some child is unvisited (`visits = 0`),
`select_child_with_max_ucb` returns an unvisited child in preference to
every visited sibling, for any exploration constant `c ≥ 0` (the
hypotheses `hv`/`hk` record that each child was visited at most as
often as its parent and that visited children's `wins` contain the
parent's current player — both hold for nodes built by the search). -/
theorem unvisited_child_wins_ucb {S M P : Type} [DecidableEq P] (fn : FloatFuns)
    (g : Game S M P) (c : ℚ) (n : Node S M P) (hc : 0 ≤ c)
    (hne : n.children ≠ [])
    (hun : ∃ ch ∈ n.children, ch.visits = 0)
    (hv : ∀ ch ∈ n.children, ch.visits ≤ n.visits)
    (hk : ∀ ch ∈ n.children, 0 < ch.visits →
      (dictLookup ch.wins (g.current_player n.game_state)).isSome = true) :
    ∃ ch, select_child_with_max_ucb fn g c n = some ch ∧ ch ∈ n.children ∧
      ch.visits = 0 := by
  -- every child's UCB computes to a value
  have hall_some : ∀ o ∈ n.children.map (fun child => get_ucb fn g n child c),
      o.isSome = true := by
    intro o ho
    obtain ⟨ch, hch, rfl⟩ := List.mem_map.mp ho
    by_cases hz : ch.visits = 0
    · rw [get_ucb_unvisited fn g n ch c hz]
      rfl
    · obtain ⟨q, hq⟩ := get_ucb_visited_fin fn g n ch c (Nat.pos_of_ne_zero hz)
        (hv ch hch) (hk ch hch (Nat.pos_of_ne_zero hz))
      rw [hq]
      rfl
  obtain ⟨vals, hvals⟩ := seqOption_of_all_isSome _ hall_some
  have hmapeq : n.children.map (fun child => get_ucb fn g n child c) = vals.map some :=
    (seqOption_some_iff _ _).mp hvals
  have hlen : vals.length = n.children.length := by
    have h2 := congrArg List.length hmapeq
    simpa using h2.symm
  -- elementwise: the UCB of the j-th child is the j-th value
  have hcorr : ∀ (j : ℕ) (ch : Node S M P) (x : F), n.children[j]? = some ch →
      vals[j]? = some x → get_ucb fn g n ch c = some x := by
    intro j ch x hj hx
    have h1 : (n.children.map (fun child => get_ucb fn g n child c))[j]? =
        some (get_ucb fn g n ch c) := by
      rw [List.getElem?_map, hj]
      rfl
    have h2 : (vals.map some)[j]? = some (some x) := by
      rw [List.getElem?_map, hx]
      rfl
    rw [hmapeq, h2] at h1
    exact Option.some.inj h1.symm
  -- each value is either the shared unvisited value or a finite value
  have hall : ∀ x ∈ vals, x = uval fn c n.visits ∨ ∃ q, x = F.fin q := by
    intro x hx
    obtain ⟨j, hj⟩ := List.mem_iff_getElem?.mp hx
    have hjlt : j < vals.length := (List.getElem?_eq_some_iff.mp hj).1
    have hjlt2 : j < n.children.length := by omega
    obtain ⟨ch, hch⟩ : ∃ ch, n.children[j]? = some ch :=
      ⟨_, List.getElem?_eq_getElem hjlt2⟩
    have hfch := hcorr j ch x hch hj
    by_cases hz : ch.visits = 0
    · left
      rw [get_ucb_unvisited fn g n ch c hz] at hfch
      exact (Option.some.inj hfch).symm
    · right
      obtain ⟨q, hq⟩ := get_ucb_visited_fin fn g n ch c (Nat.pos_of_ne_zero hz)
        (hv ch (List.getElem?_mem hch)) (hk ch (List.getElem?_mem hch)
          (Nat.pos_of_ne_zero hz))
      rw [hq] at hfch
      exact ⟨q, (Option.some.inj hfch).symm⟩
  -- the unvisited value occurs among the values
  have hmem_u : uval fn c n.visits ∈ vals := by
    obtain ⟨ch0, hch0, hch0z⟩ := hun
    obtain ⟨j0, hj0⟩ := List.mem_iff_getElem?.mp hch0
    have hj0lt : j0 < n.children.length := (List.getElem?_eq_some_iff.mp hj0).1
    have hj0v : j0 < vals.length := by omega
    obtain ⟨x0, hx0⟩ : ∃ x0, vals[j0]? = some x0 :=
      ⟨_, List.getElem?_eq_getElem hj0v⟩
    have hx0u := hcorr j0 ch0 x0 hj0 hx0
    rw [get_ucb_unvisited fn g n ch0 c hch0z] at hx0u
    have h3 := Option.some.inj hx0u
    rw [← h3] at hx0
    exact List.getElem?_mem hx0
  -- argmax picks an index holding the unvisited value
  have hidx : ∃ idx x, argmaxF vals = some idx ∧ vals[idx]? = some x ∧
      x = uval fn c n.visits := by
    rcases uval_nan_or_inf fn c n.visits with hcase | hcase
    · have hm : F.nan ∈ vals := hcase ▸ hmem_u
      have hlt : vals.findIdx (fun x => decide (x = F.nan)) < vals.length :=
        List.findIdx_lt_length_of_exists ⟨F.nan, hm, by simp⟩
      refine ⟨_, _, argmaxF_first_nan vals hm, List.getElem?_eq_getElem hlt, ?_⟩
      have hp := List.findIdx_getElem (w := hlt)
      rw [hcase]
      exact of_decide_eq_true hp
    · have hm : F.inf ∈ vals := hcase ▸ hmem_u
      have hnn : F.nan ∉ vals := by
        intro hmem
        rcases hall F.nan hmem with h | ⟨q, hq⟩
        · rw [hcase] at h
          exact F.noConfusion h
        · exact F.noConfusion hq
      have hlt : vals.findIdx (fun x => decide (x = F.inf)) < vals.length :=
        List.findIdx_lt_length_of_exists ⟨F.inf, hm, by simp⟩
      refine ⟨_, _, argmaxF_first_inf vals hm hnn, List.getElem?_eq_getElem hlt, ?_⟩
      have hp := List.findIdx_getElem (w := hlt)
      rw [hcase]
      exact of_decide_eq_true hp
  obtain ⟨idx, x, hargm, hx, hxu⟩ := hidx
  have hidxlt : idx < vals.length := (List.getElem?_eq_some_iff.mp hx).1
  have hidxch : idx < n.children.length := by omega
  obtain ⟨ch, hch⟩ : ∃ ch, n.children[idx]? = some ch :=
    ⟨_, List.getElem?_eq_getElem hidxch⟩
  have hfch := hcorr idx ch x hch hx
  have hsel : select_child_with_max_ucb fn g c n = some ch := by
    unfold select_child_with_max_ucb
    rw [hvals]
    simp only [hargm]
    exact hch
  refine ⟨ch, hsel, List.getElem?_mem hch, ?_⟩
  by_cases hz : ch.visits = 0
  · exact hz
  · exfalso
    obtain ⟨q, hq⟩ := get_ucb_visited_fin fn g n ch c (Nat.pos_of_ne_zero hz)
      (hv ch (List.getElem?_mem hch)) (hk ch (List.getElem?_mem hch)
        (Nat.pos_of_ne_zero hz))
    rw [hq] at hfch
    have hxq : x = F.fin q := (Option.some.inj hfch).symm
    rcases uval_nan_or_inf fn c n.visits with hcase | hcase <;>
      rw [hxu, hcase] at hxq <;> exact F.noConfusion hxq

/-- C2 witness: a parent with one visited and one unvisited child at
`c = 1` selects an unvisited child. -/
theorem unvisited_child_wins_ucb_witness :
    ∃ ch, select_child_with_max_ucb demoFuns demoGame 1
        (Node.mk 0 none [] [(1, 0), (2, 0), (0, 0)] 2
          [Node.mk 3 (some 3) [] [(1, 1), (2, 0), (0, 0)] 1 [],
            Node.mk 4 (some 4) [] [(1, 0), (2, 0), (0, 0)] 0 []]) = some ch ∧
      ch ∈ (Node.mk 0 none [] [(1, 0), (2, 0), (0, 0)] 2
          [Node.mk 3 (some 3) [] [(1, 1), (2, 0), (0, 0)] 1 [],
            Node.mk 4 (some 4) [] [(1, 0), (2, 0), (0, 0)] 0 []] :
          Node ℕ ℕ ℕ).children ∧
      ch.visits = 0 :=
  unvisited_child_wins_ucb demoFuns demoGame 1
    (Node.mk 0 none [] [(1, 0), (2, 0), (0, 0)] 2
      [Node.mk 3 (some 3) [] [(1, 1), (2, 0), (0, 0)] 1 [],
        Node.mk 4 (some 4) [] [(1, 0), (2, 0), (0, 0)] 0 []])
    (by norm_num) (by simp [Node.children])
    ⟨Node.mk 4 (some 4) [] [(1, 0), (2, 0), (0, 0)] 0 [],
      by simp [Node.children], rfl⟩
    (by decide) (by decide)

theorem argmaxF_isSome (l : List F) (h : l ≠ []) :
    ∃ i, argmaxF l = some i ∧ i < l.length := by
  cases l with
  | nil => exact absurd rfl h
  | cons x rest =>
    by_cases hx : x = F.nan
    · exact ⟨0, by simp [argmaxF, hx], by simp⟩
    · refine ⟨argmaxScan rest 1 x 0, by simp [argmaxF, hx], ?_⟩
      rcases argmaxScan_le rest 1 0 x with h2 | ⟨h2, h3⟩
      · simp [h2]
      · simp only [List.length_cons]
        omega

/-- Success condition: `select_child_with_max_ucb` succeeds whenever the node has children
and every visited child's `wins` contains the node's current player. -/
theorem select_child_some {S M P : Type} [DecidableEq P] (fn : FloatFuns)
    (g : Game S M P) (c : ℚ) (n : Node S M P) (hne : n.children ≠ [])
    (hk : ∀ ch ∈ n.children, 0 < ch.visits →
      (dictLookup ch.wins (g.current_player n.game_state)).isSome = true) :
    ∃ ch, select_child_with_max_ucb fn g c n = some ch := by
  have hall_some : ∀ o ∈ n.children.map (fun child => get_ucb fn g n child c),
      o.isSome = true := by
    intro o ho
    obtain ⟨ch, hch, rfl⟩ := List.mem_map.mp ho
    by_cases hz : ch.visits = 0
    · rw [get_ucb_unvisited fn g n ch c hz]
      rfl
    · obtain ⟨k, hkk⟩ := Option.isSome_iff_exists.mp (hk ch hch (Nat.pos_of_ne_zero hz))
      have hwr : win_ratio g (some n) ch =
          some (F.fin ((k : ℚ) / (ch.visits : ℚ))) := by
        simp [ win_ratio, hz, hkk]
      unfold get_ucb
      rw [hwr]
      rfl
  obtain ⟨vals, hvals⟩ := seqOption_of_all_isSome _ hall_some
  have hmapeq : n.children.map (fun child => get_ucb fn g n child c) = vals.map some :=
    (seqOption_some_iff _ _).mp hvals
  have hlen : vals.length = n.children.length := by
    have h2 := congrArg List.length hmapeq
    simpa using h2.symm
  have hvne : vals ≠ [] := by
    intro h0
    rw [h0] at hlen
    exact hne (List.length_eq_zero.mp hlen.symm)
  obtain ⟨i, hargm, hilt⟩ := argmaxF_isSome vals hvne
  have hich : i < n.children.length := by omega
  obtain ⟨ch, hch⟩ : ∃ ch, n.children[i]? = some ch :=
    ⟨_, List.getElem?_eq_getElem hich⟩
  refine ⟨ch, ?_⟩
  unfold select_child_with_max_ucb
  rw [hvals]
  simp only [hargm]
  exact hch

/-- Node well-formedness assumed by the `select` theorem (an invariant
of nodes actually built by construction and expansion): a node that is
not fully expanded still has untried actions, and a visited node's
`wins` has a key for every state's current player. -/
def selOk {S M P : Type} [DecidableEq P] (g : Game S M P) (m : Node S M P) : Prop :=
  (is_fully_expanded g m = false → m.untried_actions ≠ []) ∧
  (0 < m.visits → ∀ s : S,
    (dictLookup m.wins (g.current_player s)).isSome = true)

/-- C1: on a well-formed tree of a game in which non-terminal states
offer moves, `select` returns exactly one node, which is a terminal
node or the freshly expanded child of a non-fully-expanded node; it
never returns a fully-expanded non-terminal node, and a terminal
receiver is returned unchanged. -/
theorem select_returns_fresh_or_terminal {S M P : Type} [DecidableEq P] (fn : FloatFuns)
    (g : Game S M P) (c : ℚ)
    (hwf : ∀ s : S, g.winner s = none → g.get_valid_moves s ≠ [])
    (n : Node S M P) (hn : TreeAll (selOk g) n) :
    ∃ r, select fn g c n = some r ∧
      (is_terminal g n = true → r = n) ∧
      (is_terminal g r = true ∨
        ∃ pn : Node S M P, is_terminal g pn = false ∧ is_fully_expanded g pn = false ∧
          (expand g pn).map Prod.fst = some r) ∧
      ¬(is_fully_expanded g r = true ∧ is_terminal g r = false) := by
  have main : ∀ k : ℕ, ∀ m : Node S M P, sizeOf m ≤ k → TreeAll (selOk g) m →
      ∃ r, select fn g c m = some r ∧
        (is_terminal g m = true → r = m) ∧
        (is_terminal g r = true ∨
          ∃ pn : Node S M P, is_terminal g pn = false ∧
            is_fully_expanded g pn = false ∧ (expand g pn).map Prod.fst = some r) ∧
        ¬(is_fully_expanded g r = true ∧ is_terminal g r = false) := by
    intro k
    induction k with
    | zero =>
      intro m hsz _
      exfalso
      cases m with
      | mk s a u w v ch =>
        simp only [Node.mk.sizeOf_spec] at hsz
        omega
    | succ k ih =>
      intro m hsz hm
      cases ht : is_terminal g m with
      | true =>
        refine ⟨m, select_terminal fn g c m ht, fun _ => rfl, Or.inl ht, ?_⟩
        rintro ⟨_, htf⟩
        rw [ht] at htf
        exact Bool.noConfusion htf
      | false =>
        cases hfe : is_fully_expanded g m with
        | false =>
          have hune : m.untried_actions ≠ [] := hm.self.1 hfe
          have hesome : expand g m ≠ none := by
            intro h0
            exact hune ((expand_eq_none_iff g m).mp h0)
          obtain ⟨⟨child, m2⟩, he⟩ : ∃ p, expand g m = some p :=
            Option.ne_none_iff_exists'.mp hesome
          refine ⟨child, ?_, ?_, ?_, ?_⟩
          · rw [select_at_expandable fn g c m ht hfe, he]
            rfl
          · intro hterm
            exact Bool.noConfusion hterm
          · right
            exact ⟨m, ht, hfe, by rw [he]; rfl⟩
          · rintro ⟨hfull, hterm⟩
            obtain ⟨act, hl, hc2, hm2⟩ := expand_shape he
            subst hc2
            have hterm2 : (g.winner (g.make_move m.game_state act)).isSome = false := by
              simpa [is_terminal, mkNode] using hterm
            have hwn : g.winner (g.make_move m.game_state act) = none :=
              Option.not_isSome_iff_eq_none.mp (by simp [hterm2])
            have hmv := hwf _ hwn
            have hzero : (g.get_valid_moves (g.make_move m.game_state act)).length = 0 := by
              have hfull2 : ((mkNode g (g.make_move m.game_state act)
                  (some act)).children.length ==
                  (g.get_valid_moves (mkNode g (g.make_move m.game_state act)
                    (some act)).game_state).length) = true := hfull
              simp only [mkNode, Node.children_mk, Node.game_state_mk,
                List.length_nil] at hfull2
              exact (beq_iff_eq.mp hfull2).symm
            exact hmv (List.length_eq_zero.mp hzero)
        | true =>
          have hlen2 : m.children.length = (g.get_valid_moves m.game_state).length :=
            beq_iff_eq.mp (show (m.children.length ==
              (g.get_valid_moves m.game_state).length) = true from hfe)
          have hwn : g.winner m.game_state = none := by
            have ht2 : (g.winner m.game_state).isSome = false := ht
            exact Option.not_isSome_iff_eq_none.mp (by simp [ht2])
          have hchne : m.children ≠ [] := by
            intro h0
            rw [h0] at hlen2
            exact hwf _ hwn (List.length_eq_zero.mp hlen2.symm)
          have hkeys : ∀ ch ∈ m.children, 0 < ch.visits →
              (dictLookup ch.wins (g.current_player m.game_state)).isSome = true := by
            intro ch hch hv
            exact ((hm.child hch).self).2 hv m.game_state
          obtain ⟨ch, hch⟩ := select_child_some fn g c m hchne hkeys
          have hmem := select_child_mem hch
          have hszch : sizeOf ch ≤ k := by
            have h2 := sizeOf_lt_of_mem_children hmem
            omega
          obtain ⟨r, hr, _, hr2, hr3⟩ := ih ch hszch (hm.child hmem)
          refine ⟨r, ?_, ?_, hr2, hr3⟩
          · rw [select_descend fn g c m ch ht hfe hch]
            exact hr
          · intro hterm
            exact Bool.noConfusion hterm
  exact main (sizeOf n) n le_rfl hn

/-- C1 witness: a terminal root is returned unchanged by `select`. -/
theorem select_returns_fresh_or_terminal_witness :
    ∃ r, select demoFuns demoGame 1
        (Node.mk 5 none [] [(1, 0), (2, 0), (0, 0)] 0 []) = some r ∧
      (is_terminal demoGame (Node.mk 5 none [] [(1, 0), (2, 0), (0, 0)] 0 []) = true →
        r = Node.mk 5 none [] [(1, 0), (2, 0), (0, 0)] 0 []) ∧
      (is_terminal demoGame r = true ∨
        ∃ pn : Node ℕ ℕ ℕ, is_terminal demoGame pn = false ∧
          is_fully_expanded demoGame pn = false ∧
          (expand demoGame pn).map Prod.fst = some r) ∧
      ¬(is_fully_expanded demoGame r = true ∧ is_terminal demoGame r = false) :=
  select_returns_fresh_or_terminal demoFuns demoGame 1
    (by
      intro s hs
      by_cases h2 : s < 2
      · simp [demoGame, h2]
      · simp [demoGame, h2] at hs)
    (Node.mk 5 none [] [(1, 0), (2, 0), (0, 0)] 0 [])
    (TreeAll.mk
      ⟨fun h => absurd h (by decide), fun hv => absurd hv (by decide)⟩
      (fun c hc => absurd hc (List.not_mem_nil c)))

end MCTS
